import Mathlib

/-!
Verification of the document-conversion backend (`python-backend/main.py`).

Text is modelled as `List Char`.  The Python library primitives the source
relies on (`str.splitlines`, `str.rstrip` / `str.strip` with no argument,
`re.sub` for the two fixed patterns, `pathlib.Path(...).name`) are embedded
with their documented semantics.  The process-global engine cache (the
`converter` and `current_ocr_setting` globals) is modelled as an explicit
state record threaded through the functions, and the fallible external
calls (upload read, staged-file open and write, engine construction, engine
conversion, unlink) are modelled by an environment of outcome flags carrying
the exception messages the corresponding Python calls would raise.
-/

namespace Docling

/-- Python `str.isspace` — the characters removed by `str.rstrip()` and
`str.strip()` with no argument. -/
def isPySpace (c : Char) : Bool :=
  ([9, 10, 11, 12, 13, 0x1c, 0x1d, 0x1e, 0x1f, 32, 0x85, 0xa0,
    0x1680, 0x2000, 0x2001, 0x2002, 0x2003, 0x2004, 0x2005, 0x2006, 0x2007,
    0x2008, 0x2009, 0x200a, 0x2028, 0x2029, 0x202f, 0x205f, 0x3000] : List Nat).contains c.toNat

/-- The line boundaries recognised by Python `str.splitlines`; the pair
`'\r''\n'` additionally counts as a single boundary. -/
def isLineBreak (c : Char) : Bool :=
  ([10, 11, 12, 13, 0x1c, 0x1d, 0x1e, 0x85, 0x2028, 0x2029] : List Nat).contains c.toNat

/-- Scan for the earliest occurrence of the closing marker `-->` and return
the remainder after it — the lazy `.*?` of the pattern `<!--.*?-->` with
`re.DOTALL`; `none` when no closing marker occurs at all. -/
def dropToClose : List Char → Option (List Char)
  | '-' :: '-' :: '>' :: rest => some rest
  | _ :: rest => dropToClose rest
  | [] => none

/-- Fuelled scan of `re.sub(r'<!--.*?-->', '', text, flags=re.DOTALL)`: at
the leftmost occurrence of `<!--` that is followed by a closing `-->`,
everything from the opener through the earliest closer is removed and the
scan continues after the closer; an opener with no closer anywhere after it
matches nothing, and then no later opener can match either (a later closer
would also close the earlier opener), so the remainder is kept unchanged.
Every step consumes at least one character, so fuel equal to the length of
the text (see `removeComments`) always suffices and the fuel-exhausted
branch is unreachable. -/
def rcF : Nat → List Char → List Char
  | 0, l => l
  | fuel + 1, l =>
    match l with
    | '<' :: '!' :: '-' :: '-' :: rest =>
      match dropToClose rest with
      | some rest' => rcF fuel rest'
      | none => l
    | c :: rest => c :: rcF fuel rest
    | [] => []

/-- `re.sub(r'<!--.*?-->', '', text, flags=re.DOTALL)`. -/
def removeComments (l : List Char) : List Char := rcF l.length l

/-- Worker for `str.splitlines`: split at every line boundary (`'\r''\n'`
as one), the boundaries themselves dropped, and no trailing empty line when
the text ends in a boundary; `acc` holds the current line, reversed. -/
def splitlinesAux : List Char → List Char → List (List Char)
  | acc, [] => [acc.reverse]
  | acc, ['\r'] => [acc.reverse]
  | acc, '\r' :: '\n' :: rest2 =>
    acc.reverse :: (if rest2.isEmpty then [] else splitlinesAux [] rest2)
  | acc, '\r' :: c2 :: rest2 => acc.reverse :: splitlinesAux [] (c2 :: rest2)
  | acc, c :: rest =>
    if isLineBreak c then acc.reverse :: (if rest.isEmpty then [] else splitlinesAux [] rest)
    else splitlinesAux (c :: acc) rest

/-- Python `str.splitlines` (`"".splitlines() == []`). -/
def splitlines : List Char → List (List Char)
  | [] => []
  | c :: rest => splitlinesAux [] (c :: rest)

/-- Python `str.rstrip()` with no argument. -/
def rstrip (l : List Char) : List Char := l.rdropWhile isPySpace

/-- Python `str.lstrip()` with no argument. -/
def lstrip (l : List Char) : List Char := l.dropWhile isPySpace

/-- Python `str.strip()` with no argument (both ends). -/
def strip (l : List Char) : List Char := lstrip (rstrip l)

/-- `'\n'.join`. -/
def joinNL : List (List Char) → List Char
  | [] => []
  | [x] => x
  | x :: y :: rest => x ++ '\n' :: joinNL (y :: rest)

/-- Emit a maximal newline run of length `n`, capped at two — the
replacement step of `re.sub(r'\n{3,}', '\n\n', text)`. -/
def emitN (n : Nat) : List Char := List.replicate (min n 2) '\n'

/-- Single pass of `re.sub(r'\n{3,}', '\n\n', text)`: `n` counts the
newlines of the maximal run currently being read; a run of three or more
becomes exactly two, shorter runs are kept. -/
def cnAux : Nat → List Char → List Char
  | n, [] => emitN n
  | n, c :: rest => if c = '\n' then cnAux (n + 1) rest else emitN n ++ c :: cnAux 0 rest

/-- `re.sub(r'\n{3,}', '\n\n', text)`. -/
def collapseNewlines (l : List Char) : List Char := cnAux 0 l

/-- `clean_text_for_rag` from `main.py`: empty input maps to the empty
string (`if not text: return ""`); otherwise remove `<!-- ... -->` comment
spans (one non-greedy pass, spanning newlines), right-strip every line
(`'\n'.join(line.rstrip() for line in text.splitlines())`), collapse runs
of three or more newlines to two, and strip the whole result. -/
def clean_text_for_rag (text : List Char) : List Char :=
  if text.isEmpty then []
  else strip (collapseNewlines (joinNL ((splitlines (removeComments text)).map rstrip)))

/-- A whitespace character other than `'\n'` — what no line may end with
once every line has been right-stripped. -/
def badTrail (c : Char) : Bool := isPySpace c && !(c == '\n')

/-- No `'\n'`-delimited line of the text ends in whitespace: no character
that is whitespace-other-than-newline stands immediately before a `'\n'`
or at the end of the text. -/
def noTrailWS : List Char → Bool
  | [] => true
  | [c] => !badTrail c
  | c :: d :: rest => (!(d == '\n') || !badTrail c) && noTrailWS (d :: rest)

/-- No three consecutive newline characters anywhere. -/
def noTripleNL : List Char → Bool
  | [] => true
  | [_] => true
  | [_, _] => true
  | a :: b :: c :: rest =>
    !(a == '\n' && b == '\n' && c == '\n') && noTripleNL (b :: c :: rest)

/-- The first character, if any, is not whitespace. -/
def headNotWS : List Char → Bool
  | [] => true
  | c :: _ => !isPySpace c

/-- Neither the leading nor the trailing character is whitespace. -/
def noEdgeWS (l : List Char) : Bool := headNotWS l && headNotWS l.reverse

/-- Every character is either `'\n'` or no line boundary at all. -/
def onlyNL (l : List Char) : Prop := ∀ c ∈ l, isLineBreak c = true → c = '\n'

/-- The text contains the closing marker `-->`. -/
def hasClose : List Char → Bool
  | '-' :: '-' :: '>' :: _ => true
  | _ :: rest => hasClose rest
  | [] => false

/-- The text contains a full comment span: an occurrence of `<!--`
followed (disjointly) by an occurrence of `-->`.  Skipping the four opener
characters loses no occurrence: the three characters after a `'<'` of an
opener are `'!'`, `'-'`, `'-'`, none of which starts an opener. -/
def hasCommentSpan : List Char → Bool
  | '<' :: '!' :: '-' :: '-' :: rest => hasClose rest || hasCommentSpan rest
  | _ :: rest => hasCommentSpan rest
  | [] => false

/-- The process-global engine cache of `main.py` — the `converter` and
`current_ocr_setting` globals — plus a count of successful constructions;
each construction yields a fresh engine instance identified by the value of
the counter at construction time. -/
structure CacheState where
  converter : Option Nat
  current_ocr_setting : Bool
  ctorCount : Nat
deriving DecidableEq, Repr

/-- The module-level initialisation: `converter = None`,
`current_ocr_setting = True`. -/
def initCacheState : CacheState := ⟨none, true, 0⟩

/-- `get_converter` from `main.py`: rebuild when not initialised or when
the cached OCR setting differs from the requested one; on success the two
globals are replaced together.  When construction raises
(`constructOk = false`) the exception propagates (`raise`) and the globals
are untouched — the assignments sit after the construction call. -/
def get_converter (ocr_enabled : Bool) (constructOk : Bool) (st : CacheState) :
    Except Unit Nat × CacheState :=
  if st.converter.isNone || st.current_ocr_setting != ocr_enabled then
    if constructOk then
      (Except.ok st.ctorCount, ⟨some st.ctorCount, ocr_enabled, st.ctorCount + 1⟩)
    else (Except.error (), st)
  else (Except.ok (st.converter.getD 0), st)

/-- An exception escaping `run_conversion`, tagged by the call that raised
it and carrying the message (`str(e)`) the handler reports as the HTTP
detail. -/
inductive PyExn where
  | engineInit (msg : List Char)
  | conversion (msg : List Char)
deriving DecidableEq, Repr

/-- The `str(e)` of the exception. -/
def PyExn.msg : PyExn → List Char
  | .engineInit m => m
  | .conversion m => m

/-- The JSON payload of a successful conversion. -/
structure Bundle where
  markdown : List Char
  rag_text : List Char
  debug_info : List (List Char)
deriving DecidableEq, Repr

/-- Outcomes of the external, fallible calls one request makes, together
with the faithful markdown the engine renders for the uploaded document
and the messages of the exceptions the failing calls would raise. -/
structure Env where
  readOk : Bool
  openOk : Bool
  writeOk : Bool
  constructOk : Bool
  convertOk : Bool
  unlinkOk : Bool
  docMarkdown : List Char
  readMsg : List Char
  openMsg : List Char
  writeMsg : List Char
  constructMsg : List Char
  convertMsg : List Char
deriving DecidableEq, Repr

/-- `run_conversion` from `main.py` (the blocking worker body):
`get_converter`, then `convert`, then the output bundle.
`final_markdown` is the faithful `export_to_markdown` rendering whatever
`tbl_mode` says (the true table flattening is left unimplemented),
`rag_content` is cleaned only when `clean` is set, and `debug_info` stays
`[]` (the body of `if debug:` is `pass`). -/
def run_conversion (env : Env) (ocr clean : Bool) (tbl_mode : List Char) (debug : Bool)
    (st : CacheState) : Except PyExn Bundle × CacheState :=
  match get_converter ocr env.constructOk st with
  | (Except.error _, st') => (Except.error (PyExn.engineInit env.constructMsg), st')
  | (Except.ok _, st') =>
    if env.convertOk then
      let final_markdown := env.docMarkdown
      let rag_content := if clean then clean_text_for_rag final_markdown else final_markdown
      (Except.ok ⟨final_markdown, rag_content, []⟩, st')
    else (Except.error (PyExn.conversion env.convertMsg), st')

/-- The external engine's structured document, seen through the only part
of its contract `main.py` touches: `export_to_markdown`, which either
returns the faithful rendering or raises. -/
structure Doc where
  export_to_markdown : Except (List Char) (List Char)

/-- `flatten_tables_to_list` from `main.py`: the `try` body immediately
returns `doc.export_to_markdown()`; the `except` fallback calls
`doc.export_to_markdown()` again, which then raises the same way. -/
def flatten_tables_to_list (doc : Doc) : Except (List Char) (List Char) :=
  match doc.export_to_markdown with
  | Except.ok md => Except.ok md
  | Except.error _ => doc.export_to_markdown

/-- Split on `'/'`, the separator of a POSIX path. -/
def splitSlash : List Char → List (List Char)
  | [] => [[]]
  | c :: rest =>
    if c = '/' then [] :: splitSlash rest
    else
      match splitSlash rest with
      | [] => [[c]]
      | x :: xs => (c :: x) :: xs

/-- `pathlib.Path(s).name` for a POSIX path: the final component, where
`pathlib`'s parsing drops empty components and `'.'` components. -/
def pathName (s : List Char) : List Char :=
  ((splitSlash s).filter (fun comp => !comp.isEmpty && !(comp == ['.']))).getLastD []

/-- `tempfile.gettempdir()` — one fixed directory per process. -/
def tempDir : List Char := "/tmp".toList

/-- The staged path built at `main.py` line 196:
`Path(temp_dir) / ("docling_upload_" + str(os.getpid()) + "_" + Path(file.filename).name)`. -/
def tempPathFor (pid : Nat) (filename : List Char) : List Char :=
  tempDir ++ '/' :: ("docling_upload_".toList ++ (Nat.repr pid).toList ++ '_' :: pathName filename)

/-- The form fields of one `POST /convert` request.  `filename = none`
models an upload part carrying no filename; the Python truthiness test
`if not file.filename` also rejects an empty string. -/
structure Request where
  filename : Option (List Char)
  ocr_enabled : Bool
  rag_clean : Bool
  table_mode : List Char
  debug_mode : Bool
deriving DecidableEq, Repr

/-- The staged temporary path of a request, in the process with id `pid`. -/
def stagedTempPath (pid : Nat) (req : Request) : List Char :=
  tempPathFor pid (req.filename.getD [])

/-- A raised `fastapi.HTTPException`. -/
structure HTTPEx where
  status_code : Nat
  detail : List Char
deriving DecidableEq, Repr

def noFilenameDetail : List Char := "No filename provided".toList

instance {ε α : Type} [DecidableEq ε] [DecidableEq α] : DecidableEq (Except ε α)
  | .ok a, .ok b =>
    if h : a = b then isTrue (by rw [h]) else isFalse (by intro hh; cases hh; exact h rfl)
  | .ok _, .error _ => isFalse (by intro h; cases h)
  | .error _, .ok _ => isFalse (by intro h; cases h)
  | .error e, .error f =>
    if h : e = f then isTrue (by rw [h]) else isFalse (by intro hh; cases hh; exact h rfl)

/-- What is observable when `convert_document` finishes: the response or
the raised `HTTPException`, the engine-cache globals, whether the staged
file was ever created, and whether it still exists on disk afterwards. -/
structure ConvertOutcome where
  result : Except HTTPEx Bundle
  cache : CacheState
  tempCreated : Bool
  tempExists : Bool
deriving DecidableEq, Repr

/-- `convert_document` from `main.py`.  The outer `try` covers validation,
staging and the conversion stage, but only the inner `try/except/finally`
around the conversion carries the temp-file cleanup.  A failure of
`await file.read()` happens before the file exists; a failure of the
`write`/`flush` inside the `with` block happens after `open` has created
the file and propagates to the outer handler, which performs no cleanup;
failures inside the inner `try` reach the `finally`, whose unlink swallows
its own failure (`except Exception: pass`). -/
def convert_document (req : Request) (env : Env) (st : CacheState) : ConvertOutcome :=
  match req.filename with
  | none => ⟨Except.error ⟨400, noFilenameDetail⟩, st, false, false⟩
  | some [] => ⟨Except.error ⟨400, noFilenameDetail⟩, st, false, false⟩
  | some _ =>
    if !env.readOk then ⟨Except.error ⟨500, env.readMsg⟩, st, false, false⟩
    else if !env.openOk then ⟨Except.error ⟨500, env.openMsg⟩, st, false, false⟩
    else if !env.writeOk then ⟨Except.error ⟨500, env.writeMsg⟩, st, true, true⟩
    else
      match run_conversion env req.ocr_enabled req.rag_clean req.table_mode req.debug_mode st with
      | (Except.ok b, st') => ⟨Except.ok b, st', true, !env.unlinkOk⟩
      | (Except.error e, st') => ⟨Except.error ⟨500, e.msg⟩, st', true, !env.unlinkOk⟩

/-- An input on which one cleaning pass splices a fresh comment span out
of the flanking text: removing `<!---->` glues `<!` to `-- y -->`. -/
def exSplice : List Char := "<!<!---->-- y -->".toList

/-- A second such input, for the comment-span observation. -/
def exSplice2 : List Char := "<!<!---->-- x -->".toList

/-- An environment in which every external call succeeds. -/
def envOkay : Env :=
  ⟨true, true, true, true, true, true, "# Title".toList, [], [], [], [], []⟩

/-- An environment in which the staged write fails after `open` created
the file (for instance the disk filling up mid-write). -/
def envWriteFails : Env :=
  ⟨true, true, false, true, true, true, "# Title".toList, [],
    [], "No space left on device".toList, [], []⟩

/-- A well-formed request with default-like options. -/
def reqA : Request := ⟨some "a.pdf".toList, true, false, "markdown".toList, false⟩

/-- A second request, distinct from `reqA` (different `rag_clean`), with
the same original filename. -/
def reqB : Request := ⟨some "a.pdf".toList, true, true, "markdown".toList, false⟩

/-! Helper lemmas about the characters and predicates of the cleaning
pipeline. -/

theorem badTrail_nl : badTrail '\n' = false := by decide

theorem isLineBreak_nl : isLineBreak '\n' = true := by decide

theorem isPySpace_nl : isPySpace '\n' = true := by decide

theorem badTrail_of_not_space {c : Char} (h : isPySpace c = false) : badTrail c = false := by
  simp [badTrail, h]

theorem nl_not_mem_of_no_break {l : List Char} (h : ∀ c ∈ l, isLineBreak c = false) :
    '\n' ∉ l :=
  fun hm => absurd (h _ hm) (by simp [isLineBreak_nl])

theorem noTrailWS_nil : noTrailWS [] = true := rfl

theorem noTrailWS_single (c : Char) : noTrailWS [c] = !badTrail c := rfl

theorem noTrailWS_cons2 (c d : Char) (r : List Char) :
    noTrailWS (c :: d :: r) = ((!(d == '\n') || !badTrail c) && noTrailWS (d :: r)) := rfl

theorem noTrailWS_tail {c : Char} {t : List Char} (h : noTrailWS (c :: t) = true) :
    noTrailWS t = true := by
  cases t with
  | nil => rfl
  | cons d r =>
    rw [noTrailWS_cons2, Bool.and_eq_true] at h
    exact h.2

theorem noTrailWS_cons_nl {t : List Char} (h : noTrailWS t = true) :
    noTrailWS ('\n' :: t) = true := by
  cases t with
  | nil => decide
  | cons d r => rw [noTrailWS_cons2]; simp [badTrail_nl, h]

theorem noTrailWS_cons_not_nl {c d : Char} {r : List Char} (hd : d ≠ '\n')
    (h : noTrailWS (d :: r) = true) : noTrailWS (c :: d :: r) = true := by
  rw [noTrailWS_cons2]
  simp [hd, h]

theorem noTrailWS_cons_good {c : Char} {t : List Char} (hc : badTrail c = false)
    (h : noTrailWS t = true) : noTrailWS (c :: t) = true := by
  cases t with
  | nil => rw [noTrailWS_single]; simp [hc]
  | cons d r => rw [noTrailWS_cons2]; simp [hc, h]

theorem badTrail_false_of_noTrailWS_before_nl {c : Char} {r : List Char}
    (h : noTrailWS (c :: '\n' :: r) = true) : badTrail c = false := by
  rw [noTrailWS_cons2, Bool.and_eq_true] at h
  simpa using h.1

theorem noTrailWS_append_right {a t : List Char} (h : noTrailWS (a ++ t) = true) :
    noTrailWS t = true := by
  induction a with
  | nil => simpa using h
  | cons c a' ih => exact ih (noTrailWS_tail h)

theorem noTrailWS_dropWhile (p : Char → Bool) (l : List Char) (h : noTrailWS l = true) :
    noTrailWS (l.dropWhile p) = true := by
  induction l with
  | nil => simpa using h
  | cons c t ih =>
    rw [List.dropWhile_cons]
    by_cases hp : p c = true
    · simp only [hp, if_true]
      exact ih (noTrailWS_tail h)
    · simp only [Bool.not_eq_true] at hp
      simp only [hp, Bool.false_eq_true, if_false]
      exact h

theorem noTrailWS_replicate_nl_append (k : Nat) {t : List Char} (h : noTrailWS t = true) :
    noTrailWS (List.replicate k '\n' ++ t) = true := by
  induction k with
  | zero => simpa using h
  | succ m ih => simpa [List.replicate_succ] using noTrailWS_cons_nl ih

theorem noTrailWS_line_append (x t : List Char) (ht : noTrailWS t = true)
    (hshape : t = [] ∨ t.head? = some '\n') :
    '\n' ∉ x → (∀ c, x.getLast? = some c → isPySpace c = false) →
    noTrailWS (x ++ t) = true := by
  induction x with
  | nil =>
    intro _ _
    simpa using ht
  | cons c x' ih =>
    intro hnl hlast
    cases x' with
    | nil =>
      have hc : isPySpace c = false := hlast c (by simp)
      rcases hshape with rfl | hh
      · simpa [noTrailWS_single] using badTrail_of_not_space hc
      · cases t with
        | nil => simp at hh
        | cons d r =>
          simp only [List.head?_cons, Option.some.injEq] at hh
          subst hh
          exact noTrailWS_cons_good (badTrail_of_not_space hc) ht
    | cons d x'' =>
      have hd : d ≠ '\n' := fun e => hnl (by simp [e])
      have hnl' : '\n' ∉ d :: x'' := fun hm => hnl (List.mem_cons_of_mem _ hm)
      have hlast' : ∀ e, (d :: x'').getLast? = some e → isPySpace e = false := by
        intro e he
        exact hlast e (by rwa [List.getLast?_cons_cons])
      have ihh : noTrailWS (d :: (x'' ++ t)) = true := ih hnl' hlast'
      exact noTrailWS_cons_not_nl hd ihh

/-! Unfolding lemmas for `splitlinesAux`. -/

theorem splitlinesAux_nil (acc : List Char) : splitlinesAux acc [] = [acc.reverse] := rfl

theorem splitlinesAux_cr_nil (acc : List Char) : splitlinesAux acc ['\r'] = [acc.reverse] := rfl

theorem splitlinesAux_crlf (acc rest : List Char) :
    splitlinesAux acc ('\r' :: '\n' :: rest) =
      acc.reverse :: (if rest.isEmpty then [] else splitlinesAux [] rest) := rfl

theorem splitlinesAux_cr_other (acc : List Char) (c2 : Char) (rest2 : List Char)
    (h : c2 ≠ '\n') :
    splitlinesAux acc ('\r' :: c2 :: rest2) = acc.reverse :: splitlinesAux [] (c2 :: rest2) := by
  rw [splitlinesAux.eq_def]
  split
  · simp_all
  · simp_all
  · simp_all
  · simp_all
  · rename_i h1 hall heq
    exfalso
    cases heq
    exact hall c2 rest2 rfl rfl

theorem splitlinesAux_breakc (acc : List Char) (c : Char) (rest : List Char)
    (hc : c ≠ '\r') (hb : isLineBreak c = true) :
    splitlinesAux acc (c :: rest) =
      acc.reverse :: (if rest.isEmpty then [] else splitlinesAux [] rest) := by
  rw [splitlinesAux.eq_def]
  split <;> simp_all

theorem splitlinesAux_plain (acc : List Char) (c : Char) (rest : List Char)
    (hb : isLineBreak c = false) :
    splitlinesAux acc (c :: rest) = splitlinesAux (c :: acc) rest := by
  have hc : c ≠ '\r' := by
    intro e
    subst e
    simp [isLineBreak] at hb
  rw [splitlinesAux.eq_def]
  split <;> simp_all

theorem splitlinesAux_ne_nil (acc l : List Char) : splitlinesAux acc l ≠ [] := by
  induction acc, l using splitlinesAux.induct <;>
    simp_all [splitlinesAux_nil, splitlinesAux_cr_nil, splitlinesAux_crlf]
  case case4 acc c2 rest2 hne ih =>
    rw [splitlinesAux_cr_other _ _ _ hne]
    simp
  case case5 acc c rest h1 hall hb ih =>
    have hc : c ≠ '\r' := by
      intro e
      cases rest with
      | nil => exact h1 e rfl
      | cons a b => exact hall a b e rfl
    rw [splitlinesAux_breakc _ _ _ hc hb]
    simp
  case case6 acc c rest h1 hall hb ih =>
    rw [splitlinesAux_plain _ _ _ hb]
    exact ih

/-! Unfolding and shape lemmas for `joinNL`, `rstrip` and `cnAux`. -/

theorem joinNL_cons_ne {x : List Char} {ys : List (List Char)} (h : ys ≠ []) :
    joinNL (x :: ys) = x ++ '\n' :: joinNL ys := by
  cases ys with
  | nil => exact absurd rfl h
  | cons y ys' => rfl

theorem rstrip_nil : rstrip [] = [] := rfl

theorem rstrip_getLast?_not_space (l : List Char) (c : Char)
    (h : (rstrip l).getLast? = some c) : isPySpace c = false := by
  have hne : rstrip l ≠ [] := by
    intro e
    rw [e] at h
    simp at h
  have h2 : isPySpace ((rstrip l).getLast hne) ≠ true :=
    List.rdropWhile_last_not isPySpace l hne
  rw [List.getLast?_eq_getLast _ hne, Option.some.injEq] at h
  rw [h] at h2
  simpa using h2

theorem not_mem_rstrip {c : Char} {l : List Char} (h : c ∉ l) : c ∉ rstrip l :=
  fun hm => h ((List.rdropWhile_prefix isPySpace l).sublist.subset hm)

theorem rstrip_eq_self_of_last {a : List Char}
    (h : ∀ c, a.getLast? = some c → isPySpace c = false) : rstrip a = a := by
  apply List.rdropWhile_eq_self_iff.mpr
  intro hl
  have := h (a.getLast hl) (List.getLast?_eq_getLast _ hl)
  simp [this]

theorem cnAux_nil (n : Nat) : cnAux n [] = emitN n := rfl

theorem cnAux_cons_nl (n : Nat) (rest : List Char) :
    cnAux n ('\n' :: rest) = cnAux (n + 1) rest := by
  simp [cnAux]

theorem cnAux_cons (n : Nat) {c : Char} (h : c ≠ '\n') (rest : List Char) :
    cnAux n (c :: rest) = emitN n ++ c :: cnAux 0 rest := by
  simp [cnAux, h]

theorem cnAux_pos_head? (r : List Char) : ∀ n : Nat, (cnAux (n + 1) r).head? = some '\n' := by
  induction r with
  | nil =>
    intro n
    rw [cnAux_nil]
    have hm : min (n + 1) 2 = min n 1 + 1 := by omega
    simp [emitN, hm, List.replicate_succ]
  | cons c r' ih =>
    intro n
    by_cases hc : c = '\n'
    · subst hc
      rw [cnAux_cons_nl]
      exact ih (n + 1)
    · rw [cnAux_cons _ hc]
      have hm : min (n + 1) 2 = min n 1 + 1 := by omega
      simp [emitN, hm, List.replicate_succ]

theorem cnAux_zero_head? (l : List Char) : (cnAux 0 l).head? = l.head? := by
  cases l with
  | nil => rfl
  | cons c r =>
    by_cases hc : c = '\n'
    · subst hc
      rw [cnAux_cons_nl]
      exact cnAux_pos_head? r 0
    · rw [cnAux_cons _ hc]
      simp [emitN]

/-! `noTrailWS` is preserved by each stage of the pipeline. -/

theorem noTrailWS_cnAux (l : List Char) : ∀ n : Nat,
    noTrailWS (List.replicate n '\n' ++ l) = true → noTrailWS (cnAux n l) = true := by
  induction l with
  | nil =>
    intro n _
    rw [cnAux_nil]
    simpa [emitN] using
      noTrailWS_replicate_nl_append (min n 2) (t := []) rfl
  | cons c r ih =>
    intro n h
    by_cases hc : c = '\n'
    · subst hc
      rw [cnAux_cons_nl]
      apply ih (n + 1)
      rwa [show List.replicate (n + 1) '\n' ++ r = List.replicate n '\n' ++ '\n' :: r by
        simp [List.replicate_succ', List.append_assoc]]
    · rw [cnAux_cons _ hc]
      have h' : noTrailWS (c :: r) = true := noTrailWS_append_right h
      apply noTrailWS_replicate_nl_append
      have ihr : noTrailWS (cnAux 0 r) = true := by
        apply ih 0
        simpa using noTrailWS_tail h'
      cases r with
      | nil =>
        simpa [cnAux_nil, emitN, noTrailWS_single] using h'
      | cons d r' =>
        have hh := cnAux_zero_head? (d :: r')
        cases hcn : cnAux 0 (d :: r') with
        | nil => rw [hcn] at hh; simp at hh
        | cons e s =>
          rw [hcn] at hh ihr
          simp only [List.head?_cons, Option.some.injEq] at hh
          subst hh
          by_cases hd : e = '\n'
          · subst hd
            exact noTrailWS_cons_good (badTrail_false_of_noTrailWS_before_nl h') ihr
          · exact noTrailWS_cons_not_nl hd ihr

theorem splitlinesAux_line_chars :
    ∀ acc l : List Char, (∀ c ∈ acc, isLineBreak c = false) →
      ∀ ln ∈ splitlinesAux acc l, ∀ c ∈ ln, isLineBreak c = false := by
  intro acc l
  induction acc, l using splitlinesAux.induct with
  | case1 acc =>
    intro hacc ln hln c hc
    rw [splitlinesAux_nil] at hln
    simp only [List.mem_singleton] at hln
    subst hln
    exact hacc c (List.mem_reverse.mp hc)
  | case2 acc =>
    intro hacc ln hln c hc
    rw [splitlinesAux_cr_nil] at hln
    simp only [List.mem_singleton] at hln
    subst hln
    exact hacc c (List.mem_reverse.mp hc)
  | case3 acc rest2 ih =>
    intro hacc ln hln c hc
    rw [splitlinesAux_crlf] at hln
    rcases List.mem_cons.mp hln with rfl | hln2
    · exact hacc c (List.mem_reverse.mp hc)
    · by_cases he : rest2.isEmpty
      · simp [he] at hln2
      · rw [if_neg he] at hln2
        exact ih (by simp) ln hln2 c hc
  | case4 acc c2 rest2 hne ih =>
    intro hacc ln hln c hc
    rw [splitlinesAux_cr_other _ _ _ hne] at hln
    rcases List.mem_cons.mp hln with rfl | hln2
    · exact hacc c (List.mem_reverse.mp hc)
    · exact ih (by simp) ln hln2 c hc
  | case5 acc c0 rest hx1 hx2 hx3 hb ih =>
    intro hacc ln hln c hc
    have hc0 : c0 ≠ '\r' := by
      intro e
      cases rest with
      | nil => exact hx1 e rfl
      | cons a b => exact hx3 a b e rfl
    rw [splitlinesAux_breakc _ _ _ hc0 hb] at hln
    rcases List.mem_cons.mp hln with rfl | hln2
    · exact hacc c (List.mem_reverse.mp hc)
    · by_cases he : rest.isEmpty
      · simp [he] at hln2
      · rw [if_neg he] at hln2
        exact ih (by simp) ln hln2 c hc
  | case6 acc c0 rest hx1 hx2 hx3 hb ih =>
    intro hacc ln hln c hc
    have hb' : isLineBreak c0 = false := by simpa using hb
    rw [splitlinesAux_plain _ _ _ hb'] at hln
    refine ih ?_ ln hln c hc
    intro e he
    rcases List.mem_cons.mp he with rfl | he2
    · exact hb'
    · exact hacc e he2

/-! Lemmas about `noTripleNL`. -/

theorem noTripleNL_cons3 (a b c : Char) (r : List Char) :
    noTripleNL (a :: b :: c :: r) =
      (!(a == '\n' && b == '\n' && c == '\n') && noTripleNL (b :: c :: r)) := rfl

theorem noTripleNL_tail {c : Char} {t : List Char} (h : noTripleNL (c :: t) = true) :
    noTripleNL t = true := by
  cases t with
  | nil => rfl
  | cons d r =>
    cases r with
    | nil => rfl
    | cons e s =>
      rw [noTripleNL_cons3, Bool.and_eq_true] at h
      exact h.2

theorem noTripleNL_append_right {a t : List Char} (h : noTripleNL (a ++ t) = true) :
    noTripleNL t = true := by
  induction a with
  | nil => simpa using h
  | cons c a' ih => exact ih (noTripleNL_tail h)

theorem noTripleNL_append_left {x y : List Char} (h : noTripleNL (x ++ y) = true) :
    noTripleNL x = true := by
  induction x with
  | nil => rfl
  | cons c x' ih =>
    cases x' with
    | nil => rfl
    | cons d x'' =>
      cases x'' with
      | nil => rfl
      | cons e x3 =>
        simp only [List.cons_append] at h
        rw [noTripleNL_cons3, Bool.and_eq_true] at h
        rw [noTripleNL_cons3, Bool.and_eq_true]
        exact ⟨h.1, ih h.2⟩

theorem noTripleNL_cons_not_nl {c : Char} {t : List Char} (hc : c ≠ '\n')
    (h : noTripleNL t = true) : noTripleNL (c :: t) = true := by
  cases t with
  | nil => rfl
  | cons d r =>
    cases r with
    | nil => rfl
    | cons e s =>
      rw [noTripleNL_cons3]
      simp [hc, h]

theorem noTripleNL_cons_nl_not_nl {t : List Char} (ht : t.head? ≠ some '\n')
    (h : noTripleNL t = true) : noTripleNL ('\n' :: t) = true := by
  cases t with
  | nil => rfl
  | cons d r =>
    have hd : d ≠ '\n' := by
      intro e
      exact ht (by rw [e]; rfl)
    cases r with
    | nil => rfl
    | cons e s =>
      rw [noTripleNL_cons3]
      simp [hd, h]

theorem noTripleNL_two_nl {t : List Char} (ht : t.head? ≠ some '\n')
    (h : noTripleNL t = true) : noTripleNL ('\n' :: '\n' :: t) = true := by
  cases t with
  | nil => rfl
  | cons d r =>
    have hd : d ≠ '\n' := by
      intro e
      exact ht (by rw [e]; rfl)
    rw [noTripleNL_cons3]
    simp only [Bool.and_eq_true, Bool.not_eq_eq_eq_not]
    constructor
    · simp [hd]
    · exact noTripleNL_cons_nl_not_nl ht h

theorem noTripleNL_emitN_append {t : List Char} (n : Nat) (ht : t.head? ≠ some '\n')
    (h : noTripleNL t = true) : noTripleNL (emitN n ++ t) = true := by
  have hm : min n 2 = 0 ∨ min n 2 = 1 ∨ min n 2 = 2 := by omega
  rcases hm with h0 | h1 | h2
  · simpa [emitN, h0] using h
  · simpa [emitN, h1, List.replicate_succ] using noTripleNL_cons_nl_not_nl ht h
  · simpa [emitN, h2, List.replicate_succ] using noTripleNL_two_nl ht h

theorem noTripleNL_cnAux (l : List Char) : ∀ n : Nat, noTripleNL (cnAux n l) = true := by
  induction l with
  | nil =>
    intro n
    rw [cnAux_nil]
    simpa using noTripleNL_emitN_append (t := []) n (by simp) rfl
  | cons c r ih =>
    intro n
    by_cases hc : c = '\n'
    · subst hc
      rw [cnAux_cons_nl]
      exact ih (n + 1)
    · rw [cnAux_cons _ hc]
      apply noTripleNL_emitN_append
      · simp [hc]
      · exact noTripleNL_cons_not_nl hc (ih 0)

/-! `rstrip` interacts with `noTrailWS`. -/

theorem rstrip_cons (c : Char) (t : List Char) :
    rstrip (c :: t) =
      if rstrip t = [] then (if isPySpace c then [] else [c]) else c :: rstrip t := by
  have hrev : (c :: t).reverse = t.reverse ++ [c] := by simp
  have hiff : (rstrip t = []) ↔ (List.dropWhile isPySpace t.reverse = []) := by
    unfold rstrip List.rdropWhile
    simp
  by_cases h : List.dropWhile isPySpace t.reverse = []
  · rw [if_pos (hiff.mpr h)]
    unfold rstrip List.rdropWhile
    rw [hrev, List.dropWhile_append, h]
    by_cases hc : isPySpace c = true
    · simp [hc]
    · simp only [Bool.not_eq_true] at hc
      simp [hc]
  · rw [if_neg (fun e => h (hiff.mp e))]
    unfold rstrip List.rdropWhile
    rw [hrev, List.dropWhile_append]
    simp only [List.isEmpty_eq_true, h, if_false]
    simp

theorem noTrailWS_rstrip {l : List Char} (h : noTrailWS l = true) :
    noTrailWS (rstrip l) = true := by
  induction l with
  | nil => simpa [rstrip_nil] using h
  | cons c t ih =>
    rw [rstrip_cons]
    by_cases h1 : rstrip t = []
    · rw [if_pos h1]
      by_cases hc : isPySpace c = true
      · simp only [hc, if_true]
        rfl
      · simp only [Bool.not_eq_true] at hc
        simp only [hc, Bool.false_eq_true, if_false]
        simpa [noTrailWS_single] using badTrail_of_not_space hc
    · rw [if_neg h1]
      have ih' := ih (noTrailWS_tail h)
      cases t with
      | nil => exact absurd rstrip_nil h1
      | cons d r =>
        obtain ⟨s, hs⟩ := List.rdropWhile_prefix isPySpace (d :: r)
        cases hrt : rstrip (d :: r) with
        | nil => exact absurd hrt h1
        | cons e s' =>
          rw [show List.rdropWhile isPySpace (d :: r) = rstrip (d :: r) from rfl, hrt] at hs
          have he : e = d := by
            have h2 := congrArg List.head? hs
            simpa using h2
          subst he
          rw [hrt] at ih'
          by_cases hd : e = '\n'
          · subst hd
            exact noTrailWS_cons_good (badTrail_false_of_noTrailWS_before_nl h) ih'
          · exact noTrailWS_cons_not_nl hd ih'

theorem noTrailWS_strip {l : List Char} (h : noTrailWS l = true) :
    noTrailWS (strip l) = true :=
  noTrailWS_dropWhile _ _ (noTrailWS_rstrip h)

theorem noTripleNL_rstrip {l : List Char} (h : noTripleNL l = true) :
    noTripleNL (rstrip l) = true := by
  obtain ⟨s, hs⟩ := List.rdropWhile_prefix isPySpace l
  rw [show l.rdropWhile isPySpace = rstrip l from rfl] at hs
  rw [← hs] at h
  exact noTripleNL_append_left h

theorem noTripleNL_strip {l : List Char} (h : noTripleNL l = true) :
    noTripleNL (strip l) = true := by
  obtain ⟨s, hs⟩ := List.dropWhile_suffix (l := rstrip l) isPySpace
  have h2 : noTripleNL (s ++ (rstrip l).dropWhile isPySpace) = true := by
    rw [hs]
    exact noTripleNL_rstrip h
  exact noTripleNL_append_right h2

/-! Edge whitespace after `strip`. -/

theorem headNotWS_lstrip (l : List Char) : headNotWS (lstrip l) = true := by
  unfold lstrip
  induction l with
  | nil => rfl
  | cons c t ih =>
    rw [List.dropWhile_cons]
    by_cases hc : isPySpace c = true
    · simp only [hc, if_true]
      exact ih
    · simp only [Bool.not_eq_true] at hc
      simp [hc, headNotWS]

theorem headNotWS_strip (l : List Char) : headNotWS (strip l) = true :=
  headNotWS_lstrip (rstrip l)

/-! The joined right-stripped lines. -/

theorem noTrailWS_rstrip_line {x : List Char} (hx : ∀ c ∈ x, isLineBreak c = false) :
    noTrailWS (rstrip x) = true := by
  have h1 : '\n' ∉ rstrip x := not_mem_rstrip (nl_not_mem_of_no_break hx)
  have h2 := noTrailWS_line_append (rstrip x) [] rfl (Or.inl rfl) h1
    (rstrip_getLast?_not_space x)
  simpa using h2

theorem noTrailWS_rstrip_line_append {x t : List Char}
    (hx : ∀ c ∈ x, isLineBreak c = false) (ht : noTrailWS t = true) :
    noTrailWS (rstrip x ++ '\n' :: t) = true :=
  noTrailWS_line_append (rstrip x) ('\n' :: t) (noTrailWS_cons_nl ht) (Or.inr rfl)
    (not_mem_rstrip (nl_not_mem_of_no_break hx)) (rstrip_getLast?_not_space x)

theorem map_rstrip_splitlinesAux_ne_nil (acc l : List Char) :
    (splitlinesAux acc l).map rstrip ≠ [] := by
  intro e
  exact splitlinesAux_ne_nil acc l (List.map_eq_nil_iff.mp e)

theorem noTrailWS_joinNL_rstrip :
    ∀ acc l : List Char, (∀ c ∈ acc, isLineBreak c = false) →
      noTrailWS (joinNL ((splitlinesAux acc l).map rstrip)) = true := by
  intro acc l
  induction acc, l using splitlinesAux.induct with
  | case1 acc =>
    intro hacc
    rw [splitlinesAux_nil]
    exact noTrailWS_rstrip_line (fun c hc => hacc c (List.mem_reverse.mp hc))
  | case2 acc =>
    intro hacc
    rw [splitlinesAux_cr_nil]
    exact noTrailWS_rstrip_line (fun c hc => hacc c (List.mem_reverse.mp hc))
  | case3 acc rest2 ih =>
    intro hacc
    rw [splitlinesAux_crlf]
    by_cases he : rest2.isEmpty
    · rw [if_pos he]
      exact noTrailWS_rstrip_line (fun c hc => hacc c (List.mem_reverse.mp hc))
    · rw [if_neg he, List.map_cons, joinNL_cons_ne (map_rstrip_splitlinesAux_ne_nil [] rest2)]
      exact noTrailWS_rstrip_line_append (fun c hc => hacc c (List.mem_reverse.mp hc))
        (ih (by simp))
  | case4 acc c2 rest2 hne ih =>
    intro hacc
    rw [splitlinesAux_cr_other _ _ _ hne, List.map_cons,
      joinNL_cons_ne (map_rstrip_splitlinesAux_ne_nil [] (c2 :: rest2))]
    exact noTrailWS_rstrip_line_append (fun c hc => hacc c (List.mem_reverse.mp hc))
      (ih (by simp))
  | case5 acc c0 rest hx1 hx2 hx3 hb ih =>
    intro hacc
    have hc0 : c0 ≠ '\r' := by
      intro e
      cases rest with
      | nil => exact hx1 e rfl
      | cons a b => exact hx3 a b e rfl
    rw [splitlinesAux_breakc _ _ _ hc0 hb]
    by_cases he : rest.isEmpty
    · rw [if_pos he]
      exact noTrailWS_rstrip_line (fun c hc => hacc c (List.mem_reverse.mp hc))
    · rw [if_neg he, List.map_cons, joinNL_cons_ne (map_rstrip_splitlinesAux_ne_nil [] rest)]
      exact noTrailWS_rstrip_line_append (fun c hc => hacc c (List.mem_reverse.mp hc))
        (ih (by simp))
  | case6 acc c0 rest hx1 hx2 hx3 hb ih =>
    intro hacc
    have hb' : isLineBreak c0 = false := by simpa using hb
    rw [splitlinesAux_plain _ _ _ hb']
    refine ih ?_
    intro e he
    rcases List.mem_cons.mp he with rfl | he2
    · exact hb'
    · exact hacc e he2

/-! `onlyNL` through each stage. -/

theorem onlyNL_nil : onlyNL [] := by
  intro c hc
  simp at hc

theorem onlyNL_line {x : List Char} (hx : ∀ c ∈ x, isLineBreak c = false) : onlyNL x := by
  intro c hc hb
  exact absurd (hx c hc) (by simp [hb])

theorem onlyNL_cons_nl {t : List Char} (ht : onlyNL t) : onlyNL ('\n' :: t) := by
  intro c hc hb
  rcases List.mem_cons.mp hc with rfl | h
  · rfl
  · exact ht c h hb

theorem onlyNL_append {x t : List Char} (hx : ∀ c ∈ x, isLineBreak c = false)
    (ht : onlyNL t) : onlyNL (x ++ t) := by
  intro c hc hb
  rcases List.mem_append.mp hc with h | h
  · exact absurd (hx c h) (by simp [hb])
  · exact ht c h hb

theorem rstrip_chars {x : List Char} {c : Char} (h : c ∈ rstrip x) : c ∈ x :=
  (List.rdropWhile_prefix isPySpace x).sublist.subset h

theorem onlyNL_joinNL_rstrip :
    ∀ acc l : List Char, (∀ c ∈ acc, isLineBreak c = false) →
      onlyNL (joinNL ((splitlinesAux acc l).map rstrip)) := by
  intro acc l
  induction acc, l using splitlinesAux.induct with
  | case1 acc =>
    intro hacc
    rw [splitlinesAux_nil]
    exact onlyNL_line (fun c hc => hacc c (List.mem_reverse.mp (rstrip_chars hc)))
  | case2 acc =>
    intro hacc
    rw [splitlinesAux_cr_nil]
    exact onlyNL_line (fun c hc => hacc c (List.mem_reverse.mp (rstrip_chars hc)))
  | case3 acc rest2 ih =>
    intro hacc
    rw [splitlinesAux_crlf]
    by_cases he : rest2.isEmpty
    · rw [if_pos he]
      exact onlyNL_line (fun c hc => hacc c (List.mem_reverse.mp (rstrip_chars hc)))
    · rw [if_neg he, List.map_cons, joinNL_cons_ne (map_rstrip_splitlinesAux_ne_nil [] rest2)]
      exact onlyNL_append (fun c hc => hacc c (List.mem_reverse.mp (rstrip_chars hc)))
        (onlyNL_cons_nl (ih (by simp)))
  | case4 acc c2 rest2 hne ih =>
    intro hacc
    rw [splitlinesAux_cr_other _ _ _ hne, List.map_cons,
      joinNL_cons_ne (map_rstrip_splitlinesAux_ne_nil [] (c2 :: rest2))]
    exact onlyNL_append (fun c hc => hacc c (List.mem_reverse.mp (rstrip_chars hc)))
      (onlyNL_cons_nl (ih (by simp)))
  | case5 acc c0 rest hx1 hx2 hx3 hb ih =>
    intro hacc
    have hc0 : c0 ≠ '\r' := by
      intro e
      cases rest with
      | nil => exact hx1 e rfl
      | cons a b => exact hx3 a b e rfl
    rw [splitlinesAux_breakc _ _ _ hc0 hb]
    by_cases he : rest.isEmpty
    · rw [if_pos he]
      exact onlyNL_line (fun c hc => hacc c (List.mem_reverse.mp (rstrip_chars hc)))
    · rw [if_neg he, List.map_cons, joinNL_cons_ne (map_rstrip_splitlinesAux_ne_nil [] rest)]
      exact onlyNL_append (fun c hc => hacc c (List.mem_reverse.mp (rstrip_chars hc)))
        (onlyNL_cons_nl (ih (by simp)))
  | case6 acc c0 rest hx1 hx2 hx3 hb ih =>
    intro hacc
    have hb' : isLineBreak c0 = false := by simpa using hb
    rw [splitlinesAux_plain _ _ _ hb']
    refine ih ?_
    intro e he
    rcases List.mem_cons.mp he with rfl | he2
    · exact hb'
    · exact hacc e he2

theorem onlyNL_emitN (n : Nat) : onlyNL (emitN n) := by
  intro c hc _
  exact List.eq_of_mem_replicate hc

theorem onlyNL_cnAux (l : List Char) : ∀ n : Nat, onlyNL l → onlyNL (cnAux n l) := by
  induction l with
  | nil =>
    intro n _
    rw [cnAux_nil]
    exact onlyNL_emitN n
  | cons c r ih =>
    intro n h
    have hr : onlyNL r := fun c2 hc2 hb => h c2 (List.mem_cons_of_mem _ hc2) hb
    by_cases hc : c = '\n'
    · subst hc
      rw [cnAux_cons_nl]
      exact ih (n + 1) hr
    · rw [cnAux_cons _ hc]
      intro c2 hc2 hb
      rcases List.mem_append.mp hc2 with hm | hm
      · exact onlyNL_emitN n c2 hm hb
      · rcases List.mem_cons.mp hm with rfl | hm2
        · exact h c2 (by simp) hb
        · exact ih 0 hr c2 hm2 hb

theorem onlyNL_strip {l : List Char} (h : onlyNL l) : onlyNL (strip l) := by
  intro c hc hb
  refine h c ?_ hb
  have h1 : c ∈ rstrip l := (List.dropWhile_suffix isPySpace).sublist.subset hc
  exact rstrip_chars h1

/-! Edge whitespace of the stripped result. -/

theorem headNotWS_reverse_strip (l : List Char) : headNotWS (strip l).reverse = true := by
  cases hs : (strip l).reverse with
  | nil => rfl
  | cons c s =>
    have hg : (strip l).getLast? = some c := by
      rw [← List.head?_reverse, hs]
      rfl
    have hne : strip l ≠ [] := by
      intro e
      rw [e] at hs
      simp at hs
    obtain ⟨u, hu⟩ := List.dropWhile_suffix (l := rstrip l) isPySpace
    have hne' : List.dropWhile isPySpace (rstrip l) ≠ [] := hne
    have hg2 : (rstrip l).getLast? = some c := by
      rw [← hu, List.getLast?_append_of_ne_nil u hne']
      exact hg
    have hc := rstrip_getLast?_not_space l c hg2
    simp [headNotWS, hc]

theorem noEdgeWS_strip (l : List Char) : noEdgeWS (strip l) = true := by
  unfold noEdgeWS
  rw [headNotWS_strip, headNotWS_reverse_strip]
  rfl

/-! The master property of `clean_text_for_rag`. -/

theorem clean_props (l : List Char) :
    noTrailWS (clean_text_for_rag l) = true ∧
    noTripleNL (clean_text_for_rag l) = true ∧
    noEdgeWS (clean_text_for_rag l) = true ∧
    onlyNL (clean_text_for_rag l) := by
  unfold clean_text_for_rag
  by_cases he : l.isEmpty
  · rw [if_pos he]
    exact ⟨rfl, rfl, rfl, onlyNL_nil⟩
  · rw [if_neg he]
    cases hm : removeComments l with
    | nil =>
      exact ⟨rfl, rfl, rfl, onlyNL_nil⟩
    | cons c cs =>
      have hJn := noTrailWS_joinNL_rstrip [] (c :: cs) (by intro x hx; simp at hx)
      have hJo := onlyNL_joinNL_rstrip [] (c :: cs) (by intro x hx; simp at hx)
      refine ⟨?_, ?_, ?_, ?_⟩
      · exact noTrailWS_strip (noTrailWS_cnAux _ 0 hJn)
      · exact noTripleNL_strip (noTripleNL_cnAux _ 0)
      · exact noEdgeWS_strip _
      · exact onlyNL_strip (onlyNL_cnAux _ 0 hJo)

/-- Claim C6 counterexample: one cleaning pass of the input
`<!<!---->-- x -->` removes the inner comment `<!---->` and thereby splices
the flanking text into the fresh comment span `<!-- x -->`, which the
output still contains. -/
theorem clean_text_for_rag_output_can_contain_comment_span :
    clean_text_for_rag exSplice2 = "<!-- x -->".toList ∧
    hasCommentSpan (clean_text_for_rag exSplice2) = true := by decide

/-- Claim C6 as amended: for every input, the cleaned output has no line
with trailing whitespace, no run of more than two consecutive newlines,
and no leading or trailing whitespace; comment spans, however, are removed
in a single non-greedy pass, so the output can still contain a comment
span spliced together from the text flanking a removed span. -/
theorem clean_text_for_rag_whitespace_normal_form (text : List Char) :
    noTrailWS (clean_text_for_rag text) = true ∧
    noTripleNL (clean_text_for_rag text) = true ∧
    noEdgeWS (clean_text_for_rag text) = true :=
  ⟨(clean_props text).1, (clean_props text).2.1, (clean_props text).2.2.1⟩

/-! Fixed points of the pipeline stages, for the conditional idempotence
of `clean_text_for_rag`. -/

theorem not_space_of_badTrail_false {c : Char} (h : badTrail c = false) (hc : c ≠ '\n') :
    isPySpace c = false := by
  by_contra hp
  simp only [Bool.not_eq_false] at hp
  simp [badTrail, hp, hc] at h

theorem noTrailWS_getLast_badTrail :
    ∀ {a : List Char} {c : Char}, noTrailWS a = true → a.getLast? = some c →
      badTrail c = false := by
  intro a
  induction a with
  | nil =>
    intro c _ hc
    simp at hc
  | cons x a' ih =>
    intro c h hc
    cases a' with
    | nil =>
      simp only [List.getLast?_singleton, Option.some.injEq] at hc
      subst hc
      simpa [noTrailWS_single] using h
    | cons y a'' =>
      rw [List.getLast?_cons_cons] at hc
      exact ih (noTrailWS_tail h) hc

theorem noTrailWS_before_nl_last :
    ∀ (a : List Char) {t : List Char}, '\n' ∉ a → noTrailWS (a ++ '\n' :: t) = true →
      ∀ c, a.getLast? = some c → isPySpace c = false := by
  intro a
  induction a with
  | nil =>
    intro t _ _ c hc
    simp at hc
  | cons x a' ih =>
    intro t hnl h c hc
    cases a' with
    | nil =>
      simp only [List.getLast?_singleton, Option.some.injEq] at hc
      subst hc
      exact not_space_of_badTrail_false (badTrail_false_of_noTrailWS_before_nl h)
        (fun e => hnl (by simp [e]))
    | cons y a'' =>
      rw [List.getLast?_cons_cons] at hc
      exact ih (fun hm => hnl (List.mem_cons_of_mem _ hm)) (noTrailWS_tail h) c hc

theorem getLast?_ne_nl_of_noEdgeWS {l : List Char} (h : noEdgeWS l = true) :
    ∀ c, l.getLast? = some c → c ≠ '\n' := by
  intro c hc he
  subst he
  have h' := h
  unfold noEdgeWS at h'
  rw [Bool.and_eq_true] at h'
  have h2 := h'.2
  rw [← List.head?_reverse] at hc
  cases hrev : l.reverse with
  | nil => rw [hrev] at hc; simp at hc
  | cons d s =>
    rw [hrev] at hc h2
    simp only [List.head?_cons, Option.some.injEq] at hc
    rw [hc] at h2
    simp [headNotWS, isPySpace_nl] at h2

theorem strip_eq_self {l : List Char} (h : noEdgeWS l = true) : strip l = l := by
  have h' := h
  unfold noEdgeWS at h'
  rw [Bool.and_eq_true] at h'
  obtain ⟨h1, h2⟩ := h'
  have hr : rstrip l = l := by
    apply rstrip_eq_self_of_last
    intro c hc
    rw [← List.head?_reverse] at hc
    cases hrev : l.reverse with
    | nil => rw [hrev] at hc; simp at hc
    | cons d s =>
      rw [hrev] at hc h2
      simp only [List.head?_cons, Option.some.injEq] at hc
      rw [← hc]
      simpa [headNotWS] using h2
  unfold strip
  rw [hr]
  unfold lstrip
  cases l with
  | nil => rfl
  | cons c s =>
    rw [List.dropWhile_cons]
    have hc : isPySpace c = false := by simpa [headNotWS] using h1
    simp [hc]

theorem cnAux_eq_self :
    ∀ (l : List Char) (n : Nat), n ≤ 2 →
      noTripleNL (List.replicate n '\n' ++ l) = true →
      cnAux n l = List.replicate n '\n' ++ l := by
  intro l
  induction l with
  | nil =>
    intro n hn _
    rw [cnAux_nil]
    simp [emitN, Nat.min_eq_left hn]
  | cons c r ih =>
    intro n hn h
    by_cases hc : c = '\n'
    · subst hc
      rw [cnAux_cons_nl]
      have heq : List.replicate n '\n' ++ '\n' :: r = List.replicate (n + 1) '\n' ++ r := by
        simp [List.replicate_succ', List.append_assoc]
      have hn1 : n + 1 ≤ 2 := by
        by_contra hgt
        have hn2 : n = 2 := by omega
        subst hn2
        rw [show List.replicate 2 '\n' ++ '\n' :: r = '\n' :: '\n' :: '\n' :: r from rfl,
          noTripleNL_cons3] at h
        simp at h
      rw [heq] at h
      rw [ih (n + 1) hn1 h, heq]
    · rw [cnAux_cons _ hc]
      have he : emitN n = List.replicate n '\n' := by simp [emitN, Nat.min_eq_left hn]
      have hr : noTripleNL r = true := noTripleNL_tail (noTripleNL_append_right h)
      rw [he, ih 0 (by omega) (by simpa using hr)]
      simp

theorem joinNL_splitlines_eq_self :
    ∀ acc l : List Char, (∀ c ∈ acc, isLineBreak c = false) →
      onlyNL l →
      noTrailWS (acc.reverse ++ l) = true →
      (∀ c, (acc.reverse ++ l).getLast? = some c → c ≠ '\n') →
      joinNL ((splitlinesAux acc l).map rstrip) = acc.reverse ++ l := by
  intro acc l
  induction acc, l using splitlinesAux.induct with
  | case1 acc =>
    intro hacc honly h hlast
    rw [splitlinesAux_nil]
    show rstrip acc.reverse = acc.reverse ++ []
    rw [List.append_nil]
    apply rstrip_eq_self_of_last
    intro c hc
    have h' : noTrailWS acc.reverse = true := by simpa using h
    have hne : c ≠ '\n' := hlast c (by simpa using hc)
    exact not_space_of_badTrail_false (noTrailWS_getLast_badTrail h' hc) hne
  | case2 acc =>
    intro hacc honly h hlast
    exact absurd (honly '\r' (by simp) (by decide)) (by decide)
  | case3 acc rest2 ih =>
    intro hacc honly h hlast
    exact absurd (honly '\r' (by simp) (by decide)) (by decide)
  | case4 acc c2 rest2 hne ih =>
    intro hacc honly h hlast
    exact absurd (honly '\r' (by simp) (by decide)) (by decide)
  | case5 acc c0 rest hx1 hx2 hx3 hb ih =>
    intro hacc honly h hlast
    have hc0 : c0 = '\n' := honly c0 (by simp) hb
    subst hc0
    rw [splitlinesAux_breakc _ _ _ (by decide) hb]
    by_cases he : rest.isEmpty
    · rw [List.isEmpty_iff] at he
      subst he
      exfalso
      have hl := hlast '\n' (by rw [List.getLast?_append_of_ne_nil _ (by simp)]; rfl)
      exact hl rfl
    · have hrest : rest ≠ [] := by simpa [List.isEmpty_iff] using he
      rw [if_neg (by simpa [List.isEmpty_iff] using he), List.map_cons,
        joinNL_cons_ne (map_rstrip_splitlinesAux_ne_nil [] rest)]
      have hfix : rstrip acc.reverse = acc.reverse := by
        apply rstrip_eq_self_of_last
        exact noTrailWS_before_nl_last acc.reverse
          (fun hm => by simpa [isLineBreak_nl] using hacc '\n' (List.mem_reverse.mp hm)) h
      have honly' : onlyNL rest := fun c hc hbr => honly c (List.mem_cons_of_mem _ hc) hbr
      have hnt : noTrailWS ([] ++ rest) = true := by
        simpa using noTrailWS_tail (noTrailWS_append_right h)
      have hlast' : ∀ c, (List.reverse [] ++ rest).getLast? = some c → c ≠ '\n' := by
        intro c hc
        apply hlast c
        rw [List.getLast?_append_of_ne_nil _ (List.cons_ne_nil _ _)]
        cases rest with
        | nil => exact absurd rfl hrest
        | cons a b =>
          rw [List.getLast?_cons_cons]
          simpa using hc
      have hih := ih (by intro z hz; simp at hz) honly' (by simpa using hnt) hlast'
      rw [hfix, hih]
      simp
  | case6 acc c0 rest hx1 hx2 hx3 hb ih =>
    intro hacc honly h hlast
    have hb' : isLineBreak c0 = false := by simpa using hb
    rw [splitlinesAux_plain _ _ _ hb']
    have hre : (c0 :: acc).reverse ++ rest = acc.reverse ++ c0 :: rest := by simp
    have hacc' : ∀ c ∈ c0 :: acc, isLineBreak c = false := by
      intro e hee
      rcases List.mem_cons.mp hee with rfl | he2
      · exact hb'
      · exact hacc e he2
    have honly' : onlyNL rest := fun c hc hbr => honly c (List.mem_cons_of_mem _ hc) hbr
    have hih := ih hacc' honly' (by rw [hre]; exact h) (by rw [hre]; exact hlast)
    rw [hih, hre]

/-- Claim C5 counterexample: `clean_text_for_rag` is not idempotent — on
`<!<!---->-- y -->` one pass yields `<!-- y -->` (a fresh comment span
spliced out of the flanking text), and a second pass removes it. -/
theorem clean_text_for_rag_not_idempotent :
    clean_text_for_rag (clean_text_for_rag exSplice) ≠ clean_text_for_rag exSplice := by
  decide

/-- Claim C5 as amended: `clean_text_for_rag` maps empty input to the
empty string, and it is idempotent on every input whose cleaned output is
left unchanged by the comment-removal pass (in particular whenever the
cleaned output contains no `<!--` opener with a later closer); full
idempotence fails because the single non-greedy removal pass can splice
the text flanking a removed span into a fresh `<!-- ... -->` span, which
a second pass then removes. -/
theorem clean_text_for_rag_empty_and_conditional_idempotent :
    clean_text_for_rag [] = [] ∧
    ∀ x : List Char,
      removeComments (clean_text_for_rag x) = clean_text_for_rag x →
      clean_text_for_rag (clean_text_for_rag x) = clean_text_for_rag x := by
  refine ⟨rfl, ?_⟩
  intro x hrc
  obtain ⟨h1, h2, h3, h4⟩ := clean_props x
  by_cases hy : (clean_text_for_rag x).isEmpty
  · rw [List.isEmpty_iff] at hy
    rw [hy]
    rfl
  · conv_lhs => rw [clean_text_for_rag]
    rw [if_neg hy, hrc]
    cases hyc : clean_text_for_rag x with
    | nil => rw [hyc] at hy; simp at hy
    | cons c cs =>
      rw [hyc] at h1 h2 h3 h4
      have hG : joinNL ((splitlinesAux [] (c :: cs)).map rstrip) = c :: cs := by
        have := joinNL_splitlines_eq_self [] (c :: cs) (by intro z hz; simp at hz) h4
          (by simpa using h1) (by simpa using getLast?_ne_nl_of_noEdgeWS h3)
        simpa using this
      show strip (collapseNewlines (joinNL ((splitlinesAux [] (c :: cs)).map rstrip))) = c :: cs
      rw [hG]
      have hC : collapseNewlines (c :: cs) = c :: cs := by
        simpa using cnAux_eq_self (c :: cs) 0 (by omega) (by simpa using h2)
      rw [hC]
      exact strip_eq_self h3

/-- Witness for claim C5 (amended), at an input whose cleaned output
carries no comment opener, so the comment-removal pass fixes it. -/
theorem clean_text_for_rag_empty_and_conditional_idempotent_witness :
    clean_text_for_rag (clean_text_for_rag "a  \n\n\n\nb".toList) =
      clean_text_for_rag "a  \n\n\n\nb".toList :=
  clean_text_for_rag_empty_and_conditional_idempotent.2 "a  \n\n\n\nb".toList (by decide)

/-- Claim C2: two sequential calls to `get_converter` with the same
`ocr_enabled` return the same engine instance with the cache state left
untouched by the second call (so no second construction happens); starting
from the initial empty cache the pair performs exactly one construction;
and a subsequent call with the opposite `ocr_enabled` reconstructs,
replacing the cached instance and OCR setting with fresh ones. -/
theorem get_converter_reuse_and_rebuild
    (b ok ok' : Bool) (st st₁ : CacheState) (e₁ : Nat)
    (h : get_converter b ok st = (Except.ok e₁, st₁)) :
    get_converter b ok' st₁ = (Except.ok e₁, st₁) ∧
    (st = initCacheState → st₁.ctorCount = 1) ∧
    get_converter (!b) true st₁ =
      (Except.ok st₁.ctorCount, ⟨some st₁.ctorCount, !b, st₁.ctorCount + 1⟩) := by
  unfold get_converter at h
  by_cases hc : (st.converter.isNone || st.current_ocr_setting != b) = true
  · rw [if_pos hc] at h
    cases ok with
    | false => simp at h
    | true =>
      simp only [if_true, Prod.mk.injEq, Except.ok.injEq] at h
      obtain ⟨he, hst⟩ := h
      subst hst
      refine ⟨?_, ?_, ?_⟩
      · simp [get_converter, he]
      · intro hinit; subst hinit; rfl
      · simp [get_converter]
  · rw [if_neg hc] at h
    simp only [Prod.mk.injEq, Except.ok.injEq] at h
    obtain ⟨he, hst⟩ := h
    subst hst
    simp only [Bool.or_eq_true, not_or, Bool.not_eq_true] at hc
    obtain ⟨hcv, hcs⟩ := hc
    cases hv : st.converter with
    | none => rw [hv] at hcv; simp at hcv
    | some v =>
      have hset : st.current_ocr_setting = b := by
        have := hcs; rwa [bne_eq_false_iff_eq] at this
      refine ⟨?_, ?_, ?_⟩
      · simp [get_converter, hv, hset, ← he, hv]
      · intro hinit
        rw [hinit] at hv
        simp [initCacheState] at hv
      · simp [get_converter, hv, hset]

/-- Witness for claim C2, at the initial cache state with OCR enabled:
the second call reuses instance `0` and the state stays at one
construction. -/
theorem get_converter_reuse_and_rebuild_witness :
    get_converter true true ⟨some 0, true, 1⟩ = (Except.ok 0, ⟨some 0, true, 1⟩) :=
  (get_converter_reuse_and_rebuild true true true initCacheState ⟨some 0, true, 1⟩ 0
    (by decide)).1

/-- Claim C3 counterexample: after a successful build with OCR enabled, a
request with OCR disabled whose construction raises propagates the error,
but the previous engine stays cached — the cache does not remain empty. -/
theorem get_converter_failed_rebuild_keeps_old_cache :
    get_converter true true initCacheState = (Except.ok 0, ⟨some 0, true, 1⟩) ∧
    get_converter false false ⟨some 0, true, 1⟩ = (Except.error (), ⟨some 0, true, 1⟩) ∧
    (get_converter false false ⟨some 0, true, 1⟩).2.converter ≠ none := by decide

/-- Claim C3 as amended: when construction is triggered and raises, the
error propagates to the caller and the cache state is left exactly as it
was — in particular it stays empty if it was empty — and the next request
with the same options retries construction from scratch. -/
theorem get_converter_failure_leaves_cache_unchanged
    (b : Bool) (st : CacheState)
    (h : st.converter = none ∨ st.current_ocr_setting ≠ b) :
    get_converter b false st = (Except.error (), st) ∧
    (st.converter = none → (get_converter b false st).2.converter = none) ∧
    get_converter b true st =
      (Except.ok st.ctorCount, ⟨some st.ctorCount, b, st.ctorCount + 1⟩) := by
  have hc : (st.converter.isNone || st.current_ocr_setting != b) = true := by
    rcases h with h | h
    · simp [h]
    · simp [bne_iff_ne, h]
  refine ⟨?_, ?_, ?_⟩
  · simp [get_converter, hc]
  · intro hnone
    simpa [get_converter, hc] using hnone
  · simp [get_converter, hc]

/-- Witness for claim C3 (amended), at the reachable state holding engine
`0` built with OCR enabled and a request with OCR disabled. -/
theorem get_converter_failure_leaves_cache_unchanged_witness :
    get_converter false false ⟨some 0, true, 1⟩ = (Except.error (), ⟨some 0, true, 1⟩) :=
  (get_converter_failure_leaves_cache_unchanged false ⟨some 0, true, 1⟩
    (Or.inr (by decide))).1

/-- Claim C4: on every successful conversion, `rag_text` is the markdown
verbatim when `rag_clean` is false and `clean_text_for_rag` of that
markdown when it is true. -/
theorem run_conversion_rag_text_spec
    (env : Env) (ocr clean : Bool) (tbl : List Char) (debug : Bool)
    (st st' : CacheState) (b : Bundle)
    (h : run_conversion env ocr clean tbl debug st = (Except.ok b, st')) :
    b.rag_text = if clean then clean_text_for_rag b.markdown else b.markdown := by
  unfold run_conversion at h
  cases hg : get_converter ocr env.constructOk st with
  | mk r stg =>
    rw [hg] at h
    cases r with
    | error e => simp at h
    | ok e =>
      by_cases hcv : env.convertOk = true
      · simp only [hcv, if_true, Prod.mk.injEq, Except.ok.injEq] at h
        obtain ⟨hb, _⟩ := h
        subst hb
        rfl
      · simp only [Bool.not_eq_true] at hcv
        simp [hcv] at h

/-- Witness for claim C4, with `rag_clean = true` in the all-succeeding
environment. -/
theorem run_conversion_rag_text_spec_witness :
    (⟨"# Title".toList, clean_text_for_rag "# Title".toList, []⟩ : Bundle).rag_text =
      if true then
        clean_text_for_rag (⟨"# Title".toList, clean_text_for_rag "# Title".toList, []⟩ :
            Bundle).markdown
      else (⟨"# Title".toList, clean_text_for_rag "# Title".toList, []⟩ : Bundle).markdown :=
  run_conversion_rag_text_spec envOkay true true "markdown".toList false initCacheState
    ⟨some 0, true, 1⟩ ⟨"# Title".toList, clean_text_for_rag "# Title".toList, []⟩ (by rfl)

/-- Claim C7: every successful response carries an empty `debug_info`,
whatever `debug_mode` was (the extraction body is `pass`). -/
theorem run_conversion_debug_info_always_empty
    (env : Env) (ocr clean : Bool) (tbl : List Char) (debug : Bool)
    (st st' : CacheState) (b : Bundle)
    (h : run_conversion env ocr clean tbl debug st = (Except.ok b, st')) :
    b.debug_info = [] := by
  unfold run_conversion at h
  cases hg : get_converter ocr env.constructOk st with
  | mk r stg =>
    rw [hg] at h
    cases r with
    | error e => simp at h
    | ok e =>
      by_cases hcv : env.convertOk = true
      · simp only [hcv, if_true, Prod.mk.injEq, Except.ok.injEq] at h
        obtain ⟨hb, _⟩ := h
        subst hb
        rfl
      · simp only [Bool.not_eq_true] at hcv
        simp [hcv] at h

/-- Witness for claim C7, with `debug_mode = true` in the all-succeeding
environment. -/
theorem run_conversion_debug_info_always_empty_witness :
    (⟨"# Title".toList, "# Title".toList, []⟩ : Bundle).debug_info = [] :=
  run_conversion_debug_info_always_empty envOkay true false "markdown".toList true
    initCacheState ⟨some 0, true, 1⟩ ⟨"# Title".toList, "# Title".toList, []⟩ (by rfl)

/-- Claim C8: `flatten_tables_to_list` returns the faithful rendering on
both of its paths, the result of `run_conversion` does not depend on
`table_mode` at all (so a `list`-mode request succeeds exactly when a
`markdown`-mode one does), and the `markdown` field of every successful
bundle is the engine's faithful rendering. -/
theorem run_conversion_markdown_faithful_table_mode_harmless :
    (∀ doc : Doc, flatten_tables_to_list doc = doc.export_to_markdown) ∧
    (∀ (env : Env) (ocr clean : Bool) (tbl tbl' : List Char) (debug : Bool) (st : CacheState),
      run_conversion env ocr clean tbl debug st = run_conversion env ocr clean tbl' debug st) ∧
    (∀ (env : Env) (ocr clean : Bool) (tbl : List Char) (debug : Bool)
      (st st' : CacheState) (b : Bundle),
      run_conversion env ocr clean tbl debug st = (Except.ok b, st') →
      b.markdown = env.docMarkdown) := by
  refine ⟨?_, ?_, ?_⟩
  · intro doc
    unfold flatten_tables_to_list
    cases doc.export_to_markdown with
    | ok md => rfl
    | error e => rfl
  · intro env ocr clean tbl tbl' debug st
    rfl
  · intro env ocr clean tbl debug st st' b h
    unfold run_conversion at h
    cases hg : get_converter ocr env.constructOk st with
    | mk r stg =>
      rw [hg] at h
      cases r with
      | error e => simp at h
      | ok e =>
        by_cases hcv : env.convertOk = true
        · simp only [hcv, if_true, Prod.mk.injEq, Except.ok.injEq] at h
          obtain ⟨hb, _⟩ := h
          subst hb
          rfl
        · simp only [Bool.not_eq_true] at hcv
          simp [hcv] at h

/-- Witness for claim C8: the markdown field of the concrete successful
run equals the engine rendering of `envOkay`. -/
theorem run_conversion_markdown_faithful_table_mode_harmless_witness :
    (⟨"# Title".toList, "# Title".toList, []⟩ : Bundle).markdown = envOkay.docMarkdown :=
  run_conversion_markdown_faithful_table_mode_harmless.2.2 envOkay true false
    "list".toList false initCacheState ⟨some 0, true, 1⟩
    ⟨"# Title".toList, "# Title".toList, []⟩ (by rfl)

/-- Claim C10: a request whose upload has no filename (or an empty one) is
rejected with the 400 validation error before anything else happens: no
temporary file is created and the engine cache is left untouched. -/
theorem convert_document_missing_filename_client_error
    (req : Request) (env : Env) (st : CacheState)
    (h : req.filename = none ∨ req.filename = some []) :
    convert_document req env st =
      ⟨Except.error ⟨400, noFilenameDetail⟩, st, false, false⟩ := by
  rcases h with h | h <;> · unfold convert_document; rw [h]

/-- Witness for claim C10, at a request with no filename. -/
theorem convert_document_missing_filename_client_error_witness :
    convert_document ⟨none, true, false, "markdown".toList, false⟩ envOkay initCacheState =
      ⟨Except.error ⟨400, noFilenameDetail⟩, initCacheState, false, false⟩ :=
  convert_document_missing_filename_client_error ⟨none, true, false, "markdown".toList, false⟩
    envOkay initCacheState (Or.inl rfl)

/-- Claim C1 counterexample: when the staged write fails after `open` has
created the file (for instance, no space left on device), the error is
surfaced as a 500 while the staged file still exists — the cleanup in the
inner `finally` never ran, so the orchestrator leaves a staged file
behind. -/
theorem convert_document_staging_write_failure_leaks_temp :
    (convert_document reqA envWriteFails initCacheState).result =
      Except.error ⟨500, "No space left on device".toList⟩ ∧
    (convert_document reqA envWriteFails initCacheState).tempCreated = true ∧
    (convert_document reqA envWriteFails initCacheState).tempExists = true := by decide

/-- Claim C1 as amended: on every exit path on which the staging write
itself does not fail — normal completion, the 400 validation error, a
read failure before the file exists, an open failure, or any conversion
failure — the staged file does not remain, provided its removal itself
succeeds; only an exception of the staging write after `open` has created
the file escapes the cleanup. -/
theorem convert_document_temp_removed_after_staging
    (req : Request) (env : Env) (st : CacheState)
    (hw : env.writeOk = true) (hu : env.unlinkOk = true) :
    (convert_document req env st).tempExists = false := by
  unfold convert_document
  cases hf : req.filename with
  | none => rfl
  | some f =>
    cases f with
    | nil => rfl
    | cons c cs =>
      cases hr : env.readOk with
      | false => simp [hr]
      | true =>
        cases ho : env.openOk with
        | false => simp [hr, ho]
        | true =>
          simp only [hr, ho, hw, Bool.not_true, Bool.false_eq_true, if_false]
          cases hrc : run_conversion env req.ocr_enabled req.rag_clean req.table_mode
              req.debug_mode st with
          | mk r stg =>
            cases r with
            | ok b => simp [hu]
            | error e => simp [hu]

/-- Witness for claim C1 (amended): the all-succeeding environment leaves
no staged file. -/
theorem convert_document_temp_removed_after_staging_witness :
    (convert_document reqA envOkay initCacheState).tempExists = false :=
  convert_document_temp_removed_after_staging reqA envOkay initCacheState rfl rfl

/-- Claim C9 counterexample: two distinct concurrent requests of the same
process that upload files with the same original name are staged at the
same temporary path — the pid-plus-filename scheme is not collision-free. -/
theorem temp_path_collision_for_distinct_requests :
    reqA ≠ reqB ∧ stagedTempPath 55 reqA = stagedTempPath 55 reqB := by decide

/-- Claim C9 as amended: within one process (one pid), the staged paths of
two requests coincide exactly when the basenames of the uploads' original
filenames coincide; the path depends on nothing else, so distinct
concurrent requests with the same filename collide. -/
theorem temp_path_equality_iff_same_basename (pid : Nat) (f g : List Char) :
    tempPathFor pid f = tempPathFor pid g ↔ pathName f = pathName g := by
  constructor
  · intro h
    unfold tempPathFor at h
    have h1 := List.append_cancel_left h
    have h2 := (List.cons.injEq _ _ _ _).mp h1
    have h3 := List.append_cancel_left h2.2
    exact ((List.cons.injEq _ _ _ _).mp h3).2
  · intro h
    unfold tempPathFor
    rw [h]

end Docling
